import Mathlib

/-!
Verification of the mutual-information image-registration pipeline in
`src/mutualinformation.py` against its natural-language specification.

The program is shallowly embedded: a single-channel image is a list of rows of
rational intensity samples (the Python code works on `float64` arrays; all
arithmetic the claims depend on is exact ratio arithmetic, modelled in `ℚ`),
and a 3-channel image is a list of rows of (red, green, blue) triples.
Python exceptions (IndexError, ValueError) are modelled by `Option`: `none`
means the call raises instead of returning.  Python list indexing semantics,
including the wraparound of negative indices, is modelled by `pyIdx`/`pyGet`.

The mutual-information score itself involves `log2`, which is transcendental;
no claim depends on the numeric value of a score, only on whether the scoring
loop raises, returns a finite float, or silently produces `inf`/`nan` through
NumPy's non-raising division by zero.  The scoring loop is therefore embedded
with scores abstracted to their IEEE classification `MIClass`
(finite / +inf / nan); the embedding of each loop step records exactly which
of these the `float64` computation produces.
-/

namespace MutualInfo

abbrev Row := List ℚ

abbrev Grid := List Row

/-- A pixel of the 3-channel input image: (red, green, blue). -/
abbrev Pixel3 := ℚ × ℚ × ℚ

abbrev Grid3 := List (List Pixel3)

/-- Python `int(x)`: truncation toward zero. -/
def pyTrunc (q : ℚ) : ℤ := if q < 0 then ⌈q⌉ else ⌊q⌋

/-- Python sequence index resolution for a sequence of length `n`: a negative
index `i` with `-n ≤ i` wraps around to `n + i`; anything outside `[-n, n)`
raises IndexError (`none`). -/
def pyIdx (n : ℕ) (i : ℤ) : Option ℕ :=
  if 0 ≤ i ∧ i < (n : ℤ) then some i.toNat
  else if -(n : ℤ) ≤ i ∧ i < 0 then some (i + n).toNat
  else none

/-- Python `l[i]` read with wraparound semantics. -/
def pyGet {α : Type} (l : List α) (i : ℤ) : Option α :=
  (pyIdx l.length i).bind fun k => l.get? k

/-- Python `l[i] += 1` on an integer array (read-modify-write at a possibly
negative, wrapping index). -/
def pyIncr (l : List ℕ) (i : ℤ) : Option (List ℕ) :=
  (pyIdx l.length i).map fun k => l.set k (l.getD k 0 + 1)

/-- A Python `for`-loop that builds a list by appending `f a` for each `a`,
aborting the whole computation if any step raises. -/
def optList {α β : Type} (f : α → Option β) : List α → Option (List β)
  | [] => some []
  | a :: l => (f a).bind fun b => (optList f l).map fun r => b :: r

/-- The pixels of a single-channel image in row-major order, the order in
which `marginal_pmf`'s two nested `for` loops visit them. -/
def pixels (image : Grid) : List ℚ := image.flatten

/-- The pixels of a 3-channel image in row-major order. -/
def pixels3 (image : Grid3) : List Pixel3 := image.flatten

/-- Total number of pixels, the `count` accumulated by `marginal_pmf`. -/
def pixCount (image : Grid) : ℕ := (pixels image).length

/-- The raw-histogram slot a truncated intensity lands in after Python's
negative-index wraparound on the 256-entry table. -/
def wrapIdx (v : ℤ) : ℕ := (if v < 0 then v + 256 else v).toNat

/-- Closed form of one slot of the raw 256-entry histogram: how many pixels
of the image land in slot `k` (counting the wraparound of negative truncated
intensities). -/
def countWrap (image : Grid) (k : ℕ) : ℕ :=
  (pixels image).countP fun q => wrapIdx (pyTrunc q) == k

/-- One iteration of the histogram-filling loop body of `marginal_pmf`:
`pix = int(row[i]); hist_vals[pix] += 1; count += 1`. -/
def histInsert (hc : List ℕ × ℕ) (q : ℚ) : Option (List ℕ × ℕ) :=
  (pyIncr hc.1 (pyTrunc q)).map fun h2 => (h2, hc.2 + 1)

/-- The first phase of `marginal_pmf`: `hist_vals = np.zeros(256)` filled by
the two nested `for` loops (row-major traversal of the image), together with
the running pixel `count`. -/
def histCounts (image : Grid) : Option (List ℕ × ℕ) :=
  (pixels image).foldl (fun acc q => acc.bind fun hc => histInsert hc q)
    (some (List.replicate 256 0, 0))

/-- `len(range(0, 255, bin_size))`, i.e. ⌈255 / bin_size⌉ for `bin_size ≥ 1`:
the number of entries `marginal_pmf` appends. -/
def numBins (bin_size : ℕ) : ℕ := 254 / bin_size + 1

/-- `range(0, 255, bin_size)`: the starting raw-histogram indices of the
output bins. -/
def binStarts (bin_size : ℕ) : List ℕ :=
  (List.range (numBins bin_size)).map fun m => m * bin_size

/-- Closed form of the raw count accumulated into the output bin starting at
raw index `i`. -/
def binTotal (image : Grid) (i bin_size : ℕ) : ℕ :=
  ((List.range bin_size).map fun j => countWrap image (i + j)).sum

/-- The inner loop of the binning phase:
`var = 0; for j in range(bin_size): var += hist_vals[i+j]`.  Indices `i + j`
are never negative, so a read past index 255 raises IndexError (`none`). -/
def binSum (hist : List ℕ) (i bin_size : ℕ) : Option ℕ :=
  (optList (fun j => hist.get? (i + j)) (List.range bin_size)).map List.sum

/-- `marginal_pmf(image, bin_size)` (the `id0` argument of the Python function
is only used to label diagnostic plots and is dropped).  Python's
`range(0, 255, 0)` raises ValueError, hence `none` for `bin_size = 0`.
The dead assignment `i = i * bin_size` at the end of the Python loop body is
overwritten by the `for` statement and has no effect.  Each appended entry is
`var / count`; the claims under verification all concern non-empty images, for
which `count ≥ 1` (an empty image would produce `nan` entries in NumPy, a case
no claim touches). -/
def marginal_pmf (image : Grid) (bin_size : ℕ) : Option (List ℚ) :=
  if bin_size = 0 then none
  else
    (histCounts image).bind fun hc =>
      (optList (fun i => binSum hc.1 i bin_size) (binStarts bin_size)).map
        fun sums => sums.map fun s : ℕ => (s : ℚ) / (hc.2 : ℚ)

/-- The unnormalized 2-D grid of `joint_pmf`: cell `(i, j)` holds
`x_pmf[i] + y_pmf[j]`. -/
def jointGrid (x_pmf y_pmf : List ℚ) : List (List ℚ) :=
  x_pmf.map fun xi => y_pmf.map fun yj => xi + yj

/-- `np.sum(hist_result)`: the global sum of the unnormalized grid. -/
def jointTotal (x_pmf y_pmf : List ℚ) : ℚ :=
  ((jointGrid x_pmf y_pmf).map List.sum).sum

/-- `joint_pmf(x_pmf, y_pmf)`: the additively combined grid divided by its
global sum.  The claims under verification all provide a positive global sum;
(NumPy would otherwise produce a `nan` grid rather than raise). -/
def joint_pmf (x_pmf y_pmf : List ℚ) : List (List ℚ) :=
  (jointGrid x_pmf y_pmf).map fun row => row.map fun v => v / jointTotal x_pmf y_pmf

/-- Cell read `g[i][j]` for in-range indices (every access performed by the
embedded code is in range by construction of the grids involved). -/
def getCell (g : List (List ℚ)) (i j : ℕ) : ℚ := (g.getD i []).getD j 0

/-- IEEE classification of one `float64` value of the scoring loop: an exact
finite value, positive infinity, or not-a-number. -/
inductive MIClass : Type
  | finite : MIClass
  | posInf : MIClass
  | nan : MIClass
deriving DecidableEq, Repr

/-- `float64` addition on the classification: `nan` is absorbing, and adding
`+inf` to a finite value (or to `+inf`) gives `+inf`.  The loop never produces
`-inf` (see `pairOutcome`), so `inf - inf` cannot arise, and the finite partial
sums stay in range (their magnitudes are bounded by small multiples of
`log2` of the table size), so finite + finite is finite. -/
def addClass : MIClass → MIClass → MIClass
  | MIClass.nan, _ => MIClass.nan
  | _, MIClass.nan => MIClass.nan
  | MIClass.posInf, _ => MIClass.posInf
  | _, MIClass.posInf => MIClass.posInf
  | _, _ => MIClass.finite

/-- Classification of one term of the scoring loop of `mutual_information`:
`var1 = px[i]*py[j]; var2 = pxy[i,j]/var1; partial = pxy[i,j]*log(var2, 2)`.
All operands are NumPy `float64` scalars, so division by a zero `var1` does
NOT raise: it yields `+inf` (when `pxy[i,j] > 0`, giving the term `+inf`),
`nan` (when `pxy[i,j] = 0`, giving `0 * log(nan) = nan`), or `-inf` (when
`pxy[i,j] < 0`, making `math.log` raise ValueError, modelled `none`).  When
`var1 ≠ 0`, `math.log` raises ValueError unless `var2 > 0`, and a positive
finite `var2` gives a finite term. -/
def pairOutcome (xi yj pij : ℚ) : Option MIClass :=
  if xi * yj = 0 then
    if 0 < pij then some MIClass.posInf
    else if pij = 0 then some MIClass.nan
    else none
  else if 0 < pij / (xi * yj) then some MIClass.finite else none

/-- Analysis helper: the classification `pairOutcome` produces when the joint
cell is the additively combined value `(xi + yj) / total` with nonnegative
marginals and a positive total (see `pairOutcome_eq`). -/
def pairClassify (xi yj : ℚ) : MIClass :=
  if xi = 0 ∧ yj = 0 then MIClass.nan
  else if xi = 0 ∨ yj = 0 then MIClass.posInf
  else MIClass.finite

/-- The index pairs `(i, j)` visited by the two nested scoring loops, in
visiting order. -/
def pairList (nx ny : ℕ) : List (ℕ × ℕ) :=
  (List.range nx).flatMap fun i => (List.range ny).map fun j => (i, j)

/-- `mutual_information(image1, image2, id0, bin_size)` with the returned
score abstracted to its IEEE classification (`id0` only labels diagnostic
plots and is dropped; the commented-out plotting block is I/O and omitted).
The accumulator starts at the exact integer `0`, a finite value. -/
def mutual_information (image1 image2 : Grid) (bin_size : ℕ) : Option MIClass :=
  (marginal_pmf image1 bin_size).bind fun px =>
    (marginal_pmf image2 bin_size).bind fun py =>
      (pairList px.length py.length).foldl
        (fun acc ij =>
          acc.bind fun c =>
            (pairOutcome (px.getD ij.1 0) (py.getD ij.2 0)
                (getCell (joint_pmf px py) ij.1 ij.2)).map
              fun d => addClass c d)
        (some MIClass.finite)

/-- `extract_red`: zeroing channels 1 and 2 of a copy and keeping channel 0
amounts to selecting the red component of every pixel. -/
def extract_red (image : Grid3) : Grid :=
  image.map fun row => row.map fun p => p.1

/-- `extract_green`: selecting the green component of every pixel. -/
def extract_green (image : Grid3) : Grid :=
  image.map fun row => row.map fun p => p.2.1

/-- `np.delete(g, 0, 1)`: drop the first column.  On a rectangular array this
raises IndexError exactly when the width is 0 (some row is empty). -/
def deleteFirstCol (g : Grid) : Option Grid :=
  if g.all fun r => !r.isEmpty then some (g.map List.tail) else none

/-- `np.delete(g, -1, 1)`: drop the last column; IndexError when the width
is 0. -/
def deleteLastCol (g : Grid) : Option Grid :=
  if g.all fun r => !r.isEmpty then some (g.map List.dropLast) else none

/-- One iteration of the cropping loop of `prepare_image`: delete the first
column, then the last. -/
def cropStep (g : Grid) : Option Grid :=
  (deleteFirstCol g).bind deleteLastCol

/-- `n` iterations of the cropping loop. -/
def cropN : ℕ → Grid → Option Grid
  | 0, g => some g
  | n + 1, g => (cropStep g).bind (cropN n)

/-- `prepare_image(image)`: green channel cropped by 20 columns on each side
as the reference, red channel at full width as the comparison. -/
def prepare_image (image : Grid3) : Option (Grid × Grid) :=
  (cropN 20 (extract_green image)).map fun green => (green, extract_red image)

/-- `overlap(ref, temp, shift)`: a fresh array shaped like `ref` whose cell
`(i, j)` is `temp[i][(40 - shift) + j]`, with Python index semantics (negative
indices down to `-width` wrap; anything further raises IndexError).
`dim = np.shape(result)` of the rectangular `ref`. -/
def overlap (ref temp : Grid) (shift : ℤ) : Option Grid :=
  optList
    (fun i =>
      optList
        (fun j : ℕ => (temp.get? i).bind fun row => pyGet row (40 - shift + (j : ℤ)))
        (List.range ((ref.head?.getD []).length)))
    (List.range ref.length)

/-- The score `registration` computes for one shift `k` (the composition it
performs inside its loop body). -/
def shiftScore (image : Grid3) (k : ℕ) : Option MIClass :=
  (prepare_image image).bind fun rc =>
    (overlap rc.1 rc.2 (k : ℤ)).bind fun region =>
      mutual_information rc.1 region 3


/-- `registration(image)`: prepare once, then for `i in range(41)` score the
overlap window at shift `i` with `bin_size=3` and append the score.  The two
`save(...)` calls are file I/O and do not affect the returned value. -/
def registration (image : Grid3) : Option (List MIClass) :=
  (prepare_image image).bind fun rc =>
    optList
      (fun k : ℕ =>
        (overlap rc.1 rc.2 (k : ℤ)).bind fun region =>
          mutual_information rc.1 region 3)
      (List.range 41)

/-! ### Generic list and option lemmas -/

theorem optList_some_of {α β : Type} (f : α → Option β) (g : α → β) :
    ∀ l : List α, (∀ a ∈ l, f a = some (g a)) → optList f l = some (l.map g) := by
  intro l
  induction l with
  | nil => intro _; rfl
  | cons a l ih =>
    intro h
    have ha := h a (List.mem_cons_self a l)
    have hl := ih fun x hx => h x (List.mem_cons_of_mem a hx)
    simp [optList, ha, hl]

theorem optList_length {α β : Type} (f : α → Option β) :
    ∀ (l : List α) (r : List β), optList f l = some r → r.length = l.length := by
  intro l
  induction l with
  | nil => intro r h; simp [optList] at h; simp [← h]
  | cons a l ih =>
    intro r h
    simp only [optList] at h
    cases hfa : f a with
    | none => rw [hfa] at h; simp at h
    | some b =>
      rw [hfa] at h
      cases hrest : optList f l with
      | none => rw [hrest] at h; simp at h
      | some r2 =>
        rw [hrest] at h
        simp at h
        have := ih r2 hrest
        simp [← h, this]

theorem optList_eq_none_iff {α β : Type} (f : α → Option β) :
    ∀ l : List α, (optList f l = none ↔ ∃ a ∈ l, f a = none) := by
  intro l
  induction l with
  | nil => simp [optList]
  | cons a l ih =>
    simp only [optList]
    cases hfa : f a with
    | none => simp [hfa]
    | some b =>
      cases hrest : optList f l with
      | none => simp [hrest, ih.mp hrest]
      | some r2 =>
        constructor
        · intro h; simp [hrest] at h
        · intro h
          rcases h with ⟨x, hx, hfx⟩
          rcases List.mem_cons.mp hx with h1 | h2
          · rw [h1] at hfx; rw [hfx] at hfa; cases hfa
          · have : optList f l = none := (ih).mpr ⟨x, h2, hfx⟩
            rw [this] at hrest; cases hrest

theorem get?_eq_some_getD {α : Type} (l : List α) (n : ℕ) (d : α) (h : n < l.length) :
    l.get? n = some (l.getD n d) := by
  rw [List.getD_eq_getD_get?]
  cases h2 : l.get? n with
  | none => exact absurd (List.get?_eq_none.mp h2) (by omega)
  | some a => rfl

theorem getD_map_of_lt {α β : Type} (f : α → β) (l : List α) (i : ℕ) (h : i < l.length)
    (d : β) (d0 : α) : (l.map f).getD i d = f (l.getD i d0) := by
  rw [List.getD_eq_getD_get?, List.get?_map, get?_eq_some_getD l i d0 h]
  rfl

theorem getD_map_range {β : Type} (f : ℕ → β) (n i : ℕ) (h : i < n) (d : β) :
    ((List.range n).map f).getD i d = f i := by
  rw [getD_map_of_lt f (List.range n) i (by simpa using h) d 0]
  congr 1
  rw [List.getD_eq_getD_get?, List.get?_range h]
  rfl

theorem getD_mem_of_lt {α : Type} (l : List α) (i : ℕ) (d : α) (h : i < l.length) :
    l.getD i d ∈ l := by
  have := get?_eq_some_getD l i d h
  exact List.get?_mem this

theorem sum_map_add_distrib {α M : Type} [AddCommMonoid M] (f g : α → M) :
    ∀ l : List α, (l.map fun a => f a + g a).sum = (l.map f).sum + (l.map g).sum := by
  intro l
  induction l with
  | nil => simp
  | cons a l ih =>
    simp only [List.map_cons, List.sum_cons, ih]
    abel

theorem sum_map_eq_card_mul {α : Type} (l : List α) (f : α → ℕ) (c : ℕ)
    (h : ∀ a ∈ l, f a = c) : (l.map f).sum = l.length * c := by
  induction l with
  | nil => simp
  | cons a l ih =>
    have ha := h a (List.mem_cons_self a l)
    have := ih fun x hx => h x (List.mem_cons_of_mem a hx)
    simp [ha, this, Nat.succ_mul]
    omega

theorem sum_map_div_q {α : Type} (l : List α) (f : α → ℚ) (c : ℚ) :
    (l.map fun a => f a / c).sum = (l.map f).sum / c := by
  induction l with
  | nil => simp
  | cons a l ih => simp [ih, add_div]

theorem sum_div_list (l : List ℚ) (c : ℚ) : (l.map fun v => v / c).sum = l.sum / c := by
  simpa using sum_map_div_q l id c

theorem sum_range_add_split {M : Type} [AddCommMonoid M] (f : ℕ → M) (a : ℕ) :
    ∀ c : ℕ, ((List.range (a + c)).map f).sum
      = ((List.range a).map f).sum + ((List.range c).map fun j => f (a + j)).sum := by
  intro c
  induction c with
  | zero => simp
  | succ c ih =>
    have h1 : a + (c + 1) = (a + c) + 1 := by omega
    rw [h1, List.range_succ, List.range_succ]
    simp [ih]
    abel

theorem sum_pos_of_mem (l : List ℚ) (hn : ∀ a ∈ l, 0 ≤ a) (a : ℚ) (ha : a ∈ l)
    (hp : 0 < a) : 0 < l.sum := by
  induction l with
  | nil => cases ha
  | cons b l ih =>
    simp only [List.sum_cons]
    rcases List.mem_cons.mp ha with h1 | h2
    · have : 0 ≤ l.sum := List.sum_nonneg fun x hx => hn x (List.mem_cons_of_mem b hx)
      rw [← h1]; linarith
    · have hb : 0 ≤ b := hn b (List.mem_cons_self b l)
      have := ih (fun x hx => hn x (List.mem_cons_of_mem b hx)) h2
      linarith

theorem sum_indicator_range (g : ℕ) :
    ∀ N : ℕ, ((List.range N).map fun k => if g == k then 1 else 0).sum
      = if g < N then 1 else 0 := by
  intro N
  induction N with
  | zero => simp
  | succ N ih =>
    rw [List.range_succ]
    simp only [List.map_append, List.sum_append, ih]
    by_cases h1 : g < N
    · have h2 : g < N + 1 := by omega
      have h3 : (g == N) = false := by simp; omega
      simp [h1, h2, h3]
      omega
    · by_cases h2 : g = N
      · have h3 : g < N + 1 := by omega
        simp [h1, h2, h3]
      · have h3 : ¬ g < N + 1 := by omega
        have h4 : (g == N) = false := by simp [h2]
        simp [h1, h3, h4]
        omega

theorem sum_countP_eq_length (g : ℚ → ℕ) (N : ℕ) :
    ∀ l : List ℚ, (∀ q ∈ l, g q < N) →
      ((List.range N).map fun k => l.countP fun q => g q == k).sum = l.length := by
  intro l
  induction l with
  | nil => simp
  | cons q l ih =>
    intro h
    have hq : g q < N := h q (List.mem_cons_self q l)
    have hstep : ∀ k : ℕ, (q :: l).countP (fun x => g x == k)
        = l.countP (fun x => g x == k) + (if g q == k then 1 else 0) := by
      intro k
      rw [List.countP_cons]
    calc ((List.range N).map fun k => (q :: l).countP fun x => g x == k).sum
        = ((List.range N).map fun k =>
            l.countP (fun x => g x == k) + (if g q == k then 1 else 0)).sum := by
          congr 1
          exact List.map_congr_left fun k _ => hstep k
      _ = ((List.range N).map fun k => l.countP fun x => g x == k).sum
          + ((List.range N).map fun k => if g q == k then 1 else 0).sum :=
          sum_map_add_distrib _ _ _
      _ = l.length + 1 := by
          rw [ih fun x hx => h x (List.mem_cons_of_mem q hx), sum_indicator_range]
          simp [hq]
      _ = (q :: l).length := by simp

/-! ### The histogram-filling phase of `marginal_pmf` -/

theorem wrapIdx_lt (v : ℤ) (h1 : -256 ≤ v) (h2 : v ≤ 255) : wrapIdx v < 256 := by
  unfold wrapIdx
  split <;> omega

theorem pyIdx_eq_wrapIdx (v : ℤ) (h1 : -256 ≤ v) (h2 : v ≤ 255) :
    pyIdx 256 v = some (wrapIdx v) := by
  unfold pyIdx wrapIdx
  by_cases hv : v < 0
  · rw [if_neg (by omega), if_pos (by constructor <;> omega), if_pos hv]
    norm_num
  · rw [if_pos (by constructor <;> omega), if_neg hv]

theorem pyIncr_eq (h : List ℕ) (v : ℤ) (hlen : h.length = 256) (h1 : -256 ≤ v)
    (h2 : v ≤ 255) :
    pyIncr h v = some (h.set (wrapIdx v) (h.getD (wrapIdx v) 0 + 1)) := by
  unfold pyIncr
  rw [hlen, pyIdx_eq_wrapIdx v h1 h2]
  rfl

theorem histFold_spec :
    ∀ (l : List ℚ) (h : List ℕ) (c : ℕ), h.length = 256 →
      (∀ q ∈ l, -256 ≤ pyTrunc q ∧ pyTrunc q ≤ 255) →
      ∃ H : List ℕ,
        l.foldl (fun acc q => acc.bind fun hc => histInsert hc q) (some (h, c))
          = some (H, c + l.length) ∧ H.length = 256 ∧
        ∀ k : ℕ, k < 256 →
          H.get? k = some (h.getD k 0 + l.countP fun q => wrapIdx (pyTrunc q) == k) := by
  intro l
  induction l with
  | nil =>
    intro h c hlen _
    refine ⟨h, by simp, hlen, fun k hk => ?_⟩
    rw [get?_eq_some_getD h k 0 (by omega)]
    simp
  | cons q l ih =>
    intro h c hlen hq
    have hv := hq q (List.mem_cons_self q l)
    set idx := wrapIdx (pyTrunc q) with hidxdef
    have hidx : idx < 256 := wrapIdx_lt _ hv.1 hv.2
    have hstep : histInsert (h, c) q = some (h.set idx (h.getD idx 0 + 1), c + 1) := by
      unfold histInsert
      rw [pyIncr_eq h (pyTrunc q) hlen hv.1 hv.2]
      rfl
    have hlen2 : (h.set idx (h.getD idx 0 + 1)).length = 256 := by
      rw [List.length_set]; exact hlen
    obtain ⟨H, hfold, hHlen, hHk⟩ := ih (h.set idx (h.getD idx 0 + 1)) (c + 1) hlen2
      (fun x hx => hq x (List.mem_cons_of_mem q hx))
    refine ⟨H, ?_, hHlen, ?_⟩
    · simp only [List.foldl_cons, Option.some_bind]
      rw [hstep, hfold]
      congr 2
      simp only [List.length_cons]
      omega
    · intro k hk
      rw [hHk k hk]
      congr 1
      have hcnt : (q :: l).countP (fun x => wrapIdx (pyTrunc x) == k)
          = l.countP (fun x => wrapIdx (pyTrunc x) == k) + (if idx == k then 1 else 0) := by
        rw [List.countP_cons]
      rw [hcnt]
      by_cases hik : idx = k
      · have : (h.set idx (h.getD idx 0 + 1)).getD k 0 = h.getD idx 0 + 1 := by
          subst hik
          rw [List.getD_eq_getD_get?, List.get?_set_eq_of_lt _ (by omega)]
          rfl
        rw [this]
        simp [hik]
        try omega
      · have : (h.set idx (h.getD idx 0 + 1)).getD k 0 = h.getD k 0 := by
          rw [List.getD_eq_getD_get?, List.get?_set_ne _ _ hik]
          rw [← List.getD_eq_getD_get?]
        rw [this]
        have : (idx == k) = false := by simp [hik]
        simp [this]

theorem histCounts_spec (image : Grid)
    (hq : ∀ q ∈ pixels image, -256 ≤ pyTrunc q ∧ pyTrunc q ≤ 255) :
    ∃ H : List ℕ, histCounts image = some (H, pixCount image) ∧ H.length = 256 ∧
      ∀ k : ℕ, k < 256 → H.get? k = some (countWrap image k) := by
  obtain ⟨H, hfold, hHlen, hHk⟩ :=
    histFold_spec (pixels image) (List.replicate 256 0) 0 (List.length_replicate 256 0) hq
  refine ⟨H, ?_, hHlen, fun k hk => ?_⟩
  · unfold histCounts pixCount
    rw [hfold]
    congr 2
    omega
  · rw [hHk k hk]
    have hrep : (List.replicate 256 (0:ℕ)).getD k 0 = 0 := by
      rw [List.getD_eq_getD_get?, List.get?_eq_getElem?]
      exact List.getElem?_getD_replicate_default_eq 0 256 k
    rw [hrep]
    simp [countWrap]

/-! ### The binning phase of `marginal_pmf` -/

theorem binStarts_length (b : ℕ) : (binStarts b).length = numBins b := by
  unfold binStarts
  simp

theorem le_mul_numBins (b : ℕ) (hb : b ≠ 0) : 255 ≤ b * numBins b := by
  unfold numBins
  have h1 := Nat.div_add_mod 254 b
  have h2 : 254 % b < b := Nat.mod_lt _ (by omega)
  have h3 : b * (254 / b + 1) = b * (254 / b) + b := by ring
  omega

theorem binSum_eq (image : Grid) (H : List ℕ) (_hHlen : H.length = 256)
    (hHk : ∀ k : ℕ, k < 256 → H.get? k = some (countWrap image k))
    (i b : ℕ) (hib : i + b ≤ 256) :
    binSum H i b = some (binTotal image i b) := by
  unfold binSum binTotal
  rw [optList_some_of (fun j => H.get? (i + j)) (fun j => countWrap image (i + j))
    (List.range b) (fun j hj => hHk (i + j) (by simp at hj; omega))]
  rfl

theorem marginal_pmf_eq (image : Grid) (b : ℕ) (hb : b ≠ 0)
    (hscan : b * numBins b ≤ 256)
    (hq : ∀ q ∈ pixels image, -256 ≤ pyTrunc q ∧ pyTrunc q ≤ 255) :
    marginal_pmf image b
      = some ((binStarts b).map fun i =>
          (binTotal image i b : ℚ) / (pixCount image : ℚ)) := by
  obtain ⟨H, hhc, hHlen, hHk⟩ := histCounts_spec image hq
  unfold marginal_pmf
  rw [if_neg hb, hhc]
  have hbin : ∀ i ∈ binStarts b, binSum H i b = some (binTotal image i b) := by
    intro i hi
    unfold binStarts at hi
    simp only [List.mem_map, List.mem_range] at hi
    obtain ⟨m, hm, rfl⟩ := hi
    apply binSum_eq image H hHlen hHk
    have h4 : (m + 1) * b ≤ numBins b * b := Nat.mul_le_mul_right b (by omega)
    have h5 : (m + 1) * b = m * b + b := by ring
    have h6 : numBins b * b = b * numBins b := by ring
    omega
  rw [Option.some_bind, optList_some_of _ _ _ hbin]
  rw [Option.map_some', List.map_map]
  rfl

theorem marginal_len_aux (image : Grid) (b : ℕ) (l : List ℚ)
    (h : marginal_pmf image b = some l) : l.length = numBins b := by
  unfold marginal_pmf at h
  by_cases hb : b = 0
  · rw [if_pos hb] at h; cases h
  · rw [if_neg hb] at h
    cases hhc : histCounts image with
    | none => rw [hhc] at h; cases h
    | some hc =>
      rw [hhc, Option.some_bind] at h
      cases hol : optList (fun i => binSum hc.1 i b) (binStarts b) with
      | none => rw [hol] at h; cases h
      | some sums =>
        rw [hol, Option.map_some'] at h
        have hlen := optList_length _ _ _ hol
        have hl := (Option.some_inj.mp h).symm
        rw [hl, List.length_map, hlen, binStarts_length]

theorem marginal_nonneg_aux (image : Grid) (b : ℕ) (l : List ℚ)
    (h : marginal_pmf image b = some l) : ∀ a ∈ l, 0 ≤ a := by
  unfold marginal_pmf at h
  by_cases hb : b = 0
  · rw [if_pos hb] at h; cases h
  · rw [if_neg hb] at h
    cases hhc : histCounts image with
    | none => rw [hhc] at h; cases h
    | some hc =>
      rw [hhc, Option.some_bind] at h
      cases hol : optList (fun i => binSum hc.1 i b) (binStarts b) with
      | none => rw [hol] at h; cases h
      | some sums =>
        rw [hol, Option.map_some'] at h
        have hl := (Option.some_inj.mp h).symm
        intro a ha
        rw [hl] at ha
        simp only [List.mem_map] at ha
        obtain ⟨s, _, rfl⟩ := ha
        exact div_nonneg (Nat.cast_nonneg s) (Nat.cast_nonneg hc.2)

theorem sum_blocks (f : ℕ → ℕ) (b : ℕ) :
    ∀ n : ℕ,
      ((List.range n).map fun m => ((List.range b).map fun j => f (m * b + j)).sum).sum
        = ((List.range (n * b)).map f).sum := by
  intro n
  induction n with
  | zero => simp
  | succ n ih =>
    rw [List.range_succ]
    simp only [List.map_append, List.sum_append, ih]
    have h1 : (n + 1) * b = n * b + b := by ring
    rw [h1, sum_range_add_split f (n * b) b]
    simp

theorem sum_countWrap_eq_pixCount (image : Grid) (B : ℕ) (hB : 255 ≤ B)
    (hq : ∀ q ∈ pixels image, 0 ≤ pyTrunc q ∧ pyTrunc q ≤ 254) :
    ((List.range B).map fun k => countWrap image k).sum = pixCount image := by
  have hsplit : B = 255 + (B - 255) := by omega
  rw [hsplit, sum_range_add_split]
  have h2 : ((List.range (B - 255)).map fun j => countWrap image (255 + j)).sum = 0 := by
    apply List.sum_eq_zero
    intro x hx
    simp only [List.mem_map, List.mem_range] at hx
    obtain ⟨j, _, rfl⟩ := hx
    unfold countWrap
    rw [List.countP_eq_zero]
    intro q hqm
    have hb := hq q hqm
    have hw : wrapIdx (pyTrunc q) ≤ 254 := by unfold wrapIdx; split <;> omega
    simp
    omega
  rw [h2]
  have h3 : ∀ q ∈ pixels image, wrapIdx (pyTrunc q) < 255 := by
    intro q hqm
    have hb := hq q hqm
    unfold wrapIdx
    split <;> omega
  unfold countWrap pixCount
  rw [sum_countP_eq_length _ 255 (pixels image) h3]
  omega

theorem marginal_sum_one_aux (image : Grid) (b : ℕ) (hb : b ≠ 0)
    (hq : ∀ q ∈ pixels image, 0 ≤ pyTrunc q ∧ pyTrunc q ≤ 254)
    (hc : pixCount image ≠ 0) :
    ((binStarts b).map fun i => (binTotal image i b : ℚ) / (pixCount image : ℚ)).sum
      = 1 := by
  rw [sum_map_div_q]
  have hnat : ((binStarts b).map fun i => binTotal image i b).sum = pixCount image := by
    unfold binStarts
    rw [List.map_map]
    have hcomp : ((fun i => binTotal image i b) ∘ fun m => m * b)
        = fun m => binTotal image (m * b) b := rfl
    rw [hcomp]
    have hblocks := sum_blocks (fun k => countWrap image k) b (numBins b)
    unfold binTotal
    rw [hblocks]
    apply sum_countWrap_eq_pixCount
    · have := le_mul_numBins b hb
      have h6 : numBins b * b = b * numBins b := by ring
      omega
    · exact hq
  have hnum : ((binStarts b).map fun i => (binTotal image i b : ℚ)).sum
      = (pixCount image : ℚ) := by
    calc ((binStarts b).map fun i => (binTotal image i b : ℚ)).sum
        = (((binStarts b).map fun i => binTotal image i b).map fun n : ℕ => (n : ℚ)).sum := by
          rw [List.map_map]; rfl
      _ = ((((binStarts b).map fun i => binTotal image i b).sum : ℕ) : ℚ) :=
          (Nat.cast_list_sum _).symm
      _ = (pixCount image : ℚ) := by rw [hnat]
  rw [hnum]
  exact div_self (Nat.cast_ne_zero.mpr hc)

/-! ### `joint_pmf` -/

theorem sum_map_const_add (y : List ℚ) (c : ℚ) :
    (y.map fun v => c + v).sum = y.length * c + y.sum := by
  induction y with
  | nil => simp
  | cons a y ih =>
    simp only [List.map_cons, List.sum_cons, List.length_cons, ih]
    push_cast
    ring

theorem sum_affine (x : List ℚ) (c d : ℚ) :
    (x.map fun v => c * v + d).sum = c * x.sum + x.length * d := by
  induction x with
  | nil => simp
  | cons a x ih =>
    simp only [List.map_cons, List.sum_cons, List.length_cons, ih]
    push_cast
    ring

theorem jointTotal_eq (x y : List ℚ) :
    jointTotal x y = y.length * x.sum + x.length * y.sum := by
  unfold jointTotal jointGrid
  rw [List.map_map]
  have hcomp : (List.sum ∘ fun xi => y.map fun yj => xi + yj)
      = fun xi => (y.length : ℚ) * xi + y.sum := by
    funext xi
    exact sum_map_const_add y xi
  rw [hcomp, sum_affine]

theorem joint_pmf_length (x y : List ℚ) : (joint_pmf x y).length = x.length := by
  simp [joint_pmf, jointGrid]

theorem joint_pmf_row_length (x y : List ℚ) :
    ∀ row ∈ joint_pmf x y, row.length = y.length := by
  intro row hrow
  simp only [joint_pmf, jointGrid, List.map_map, List.mem_map] at hrow
  obtain ⟨xi, _, rfl⟩ := hrow
  simp

theorem joint_cell_eq (x y : List ℚ) (i j : ℕ) (hi : i < x.length) (hj : j < y.length) :
    getCell (joint_pmf x y) i j = (x.getD i 0 + y.getD j 0) / jointTotal x y := by
  unfold getCell joint_pmf jointGrid
  rw [List.map_map]
  rw [getD_map_of_lt _ x i hi [] 0]
  simp only [Function.comp_apply]
  rw [List.map_map]
  rw [getD_map_of_lt _ y j hj 0 0]
  rfl

theorem joint_pmf_sum (x y : List ℚ) (ht : jointTotal x y ≠ 0) :
    ((joint_pmf x y).map List.sum).sum = 1 := by
  unfold joint_pmf
  rw [List.map_map]
  have hcomp : (List.sum ∘ fun row : List ℚ => row.map fun v => v / jointTotal x y)
      = fun row : List ℚ => row.sum / jointTotal x y := by
    funext row
    exact sum_div_list row _
  rw [hcomp]
  rw [sum_map_div_q (jointGrid x y) List.sum (jointTotal x y)]
  rw [show ((jointGrid x y).map List.sum).sum = jointTotal x y from rfl]
  exact div_self ht

theorem jointTotal_pos (x y : List ℚ) (hx : x ≠ []) (hy : y ≠ [])
    (hxn : ∀ a ∈ x, 0 ≤ a) (hyn : ∀ a ∈ y, 0 ≤ a)
    (hpos : (∃ a ∈ x, 0 < a) ∨ ∃ a ∈ y, 0 < a) : 0 < jointTotal x y := by
  rw [jointTotal_eq]
  have hxs : 0 ≤ x.sum := List.sum_nonneg hxn
  have hys : 0 ≤ y.sum := List.sum_nonneg hyn
  have hxl : 0 < (x.length : ℚ) := by exact_mod_cast List.length_pos.mpr hx
  have hyl : 0 < (y.length : ℚ) := by exact_mod_cast List.length_pos.mpr hy
  rcases hpos with ⟨a, ha, hap⟩ | ⟨a, ha, hap⟩
  · have := sum_pos_of_mem x hxn a ha hap
    nlinarith
  · have := sum_pos_of_mem y hyn a ha hap
    nlinarith

theorem jointTotal_pos_of_sum_one (px py : List ℚ) (hs1 : px.sum = 1) (hs2 : py.sum = 1)
    (hl1 : px ≠ []) (hl2 : py ≠ []) : 0 < jointTotal px py := by
  rw [jointTotal_eq, hs1, hs2]
  have h1 : 0 < (px.length : ℚ) := by exact_mod_cast List.length_pos.mpr hl1
  have h2 : 0 < (py.length : ℚ) := by exact_mod_cast List.length_pos.mpr hl2
  nlinarith

/-! ### The scoring loop of `mutual_information` -/

theorem pairList_mem (nx ny : ℕ) (x : ℕ × ℕ) :
    x ∈ pairList nx ny ↔ x.1 < nx ∧ x.2 < ny := by
  obtain ⟨i, j⟩ := x
  simp only [pairList, List.mem_flatMap, List.mem_range, List.mem_map, Prod.mk.injEq]
  constructor
  · rintro ⟨a, ha, b, hb, rfl, rfl⟩
    exact ⟨ha, hb⟩
  · rintro ⟨hi, hj⟩
    exact ⟨i, hi, j, hj, rfl, rfl⟩

theorem miFold_some {α : Type} (f : α → Option MIClass) (q : α → MIClass) :
    ∀ (l : List α) (c : MIClass), (∀ x ∈ l, f x = some (q x)) →
      l.foldl (fun acc ij => acc.bind fun c => (f ij).map fun d => addClass c d) (some c)
        = some (l.foldl (fun c ij => addClass c (q ij)) c) := by
  intro l
  induction l with
  | nil => intro c _; rfl
  | cons a l ih =>
    intro c h
    rw [List.foldl_cons, List.foldl_cons]
    have ha := h a (List.mem_cons_self a l)
    simp only [Option.some_bind, ha, Option.map_some']
    exact ih (addClass c (q a)) fun x hx => h x (List.mem_cons_of_mem a hx)

theorem addClass_ne_finite_left (c d : MIClass) (hc : c ≠ MIClass.finite) :
    addClass c d ≠ MIClass.finite := by
  cases c <;> cases d <;> simp_all [addClass]

theorem addClass_ne_finite_right (c d : MIClass) (hd : d ≠ MIClass.finite) :
    addClass c d ≠ MIClass.finite := by
  cases c <;> cases d <;> simp_all [addClass]

theorem foldl_addClass_ne_finite {α : Type} (q : α → MIClass) :
    ∀ (l : List α) (c : MIClass), c ≠ MIClass.finite →
      l.foldl (fun c x => addClass c (q x)) c ≠ MIClass.finite := by
  intro l
  induction l with
  | nil => intro c hc; exact hc
  | cons a l ih =>
    intro c hc
    rw [List.foldl_cons]
    exact ih _ (addClass_ne_finite_left _ _ hc)

theorem foldl_addClass_ne_finite_of_mem {α : Type} (q : α → MIClass) (l : List α)
    (x : α) (hx : x ∈ l) (hq : q x ≠ MIClass.finite) (c : MIClass) :
    l.foldl (fun c x => addClass c (q x)) c ≠ MIClass.finite := by
  obtain ⟨s, t, rfl⟩ := List.append_of_mem hx
  rw [List.foldl_append, List.foldl_cons]
  exact foldl_addClass_ne_finite q t _ (addClass_ne_finite_right _ _ hq)

theorem pairClassify_left_zero (yj : ℚ) : pairClassify 0 yj ≠ MIClass.finite := by
  unfold pairClassify
  by_cases hy : yj = 0 <;> simp [hy]

theorem pairClassify_right_zero (xi : ℚ) : pairClassify xi 0 ≠ MIClass.finite := by
  unfold pairClassify
  by_cases hx : xi = 0 <;> simp [hx]

theorem pairOutcome_eq (xi yj t : ℚ) (hx : 0 ≤ xi) (hy : 0 ≤ yj) (ht : 0 < t) :
    pairOutcome xi yj ((xi + yj) / t) = some (pairClassify xi yj) := by
  unfold pairOutcome pairClassify
  by_cases hxz : xi = 0
  · by_cases hyz : yj = 0
    · subst hxz; subst hyz
      norm_num
    · subst hxz
      have hyp : 0 < yj := hy.lt_of_ne (Ne.symm hyz)
      have h1 : (0 : ℚ) * yj = 0 := by ring
      have hpij : 0 < ((0 : ℚ) + yj) / t := by
        rw [zero_add]; exact div_pos hyp ht
      rw [if_pos h1, if_pos hpij]
      simp [hyz]
  · by_cases hyz : yj = 0
    · subst hyz
      have hxp : 0 < xi := hx.lt_of_ne (Ne.symm hxz)
      have h1 : xi * (0 : ℚ) = 0 := by ring
      have hpij : 0 < (xi + (0 : ℚ)) / t := by
        rw [add_zero]; exact div_pos hxp ht
      rw [if_pos h1, if_pos hpij]
      simp [hxz]
    · have hxp : 0 < xi := hx.lt_of_ne (Ne.symm hxz)
      have hyp : 0 < yj := hy.lt_of_ne (Ne.symm hyz)
      have h1 : xi * yj ≠ 0 := by positivity
      have hpij : 0 < (xi + yj) / t := div_pos (by linarith) ht
      have h2 : 0 < (xi + yj) / t / (xi * yj) := div_pos hpij (by positivity)
      rw [if_neg h1, if_pos h2]
      simp [hxz, hyz]

theorem mutual_information_eq (image1 image2 : Grid) (b : ℕ) (px py : List ℚ)
    (h1 : marginal_pmf image1 b = some px) (h2 : marginal_pmf image2 b = some py)
    (ht : 0 < jointTotal px py) :
    mutual_information image1 image2 b
      = some ((pairList px.length py.length).foldl
          (fun c ij => addClass c (pairClassify (px.getD ij.1 0) (py.getD ij.2 0)))
          MIClass.finite) := by
  have hxn := marginal_nonneg_aux image1 b px h1
  have hyn := marginal_nonneg_aux image2 b py h2
  unfold mutual_information
  rw [h1, h2, Option.some_bind, Option.some_bind]
  apply miFold_some
  intro ij hij
  obtain ⟨hi, hj⟩ := (pairList_mem _ _ _).mp hij
  rw [joint_cell_eq px py ij.1 ij.2 hi hj]
  exact pairOutcome_eq _ _ _ (hxn _ (getD_mem_of_lt px ij.1 0 hi))
    (hyn _ (getD_mem_of_lt py ij.2 0 hj)) ht

theorem mi_zero_bin_aux (image1 image2 : Grid) (b : ℕ) (px py : List ℚ)
    (h1 : marginal_pmf image1 b = some px) (h2 : marginal_pmf image2 b = some py)
    (ht : 0 < jointTotal px py) (hx1 : px ≠ []) (hy1 : py ≠ [])
    (hz : (∃ i, i < px.length ∧ px.getD i 0 = 0)
        ∨ ∃ j, j < py.length ∧ py.getD j 0 = 0) :
    ∃ c, mutual_information image1 image2 b = some c ∧ c ≠ MIClass.finite := by
  refine ⟨_, mutual_information_eq image1 image2 b px py h1 h2 ht, ?_⟩
  rcases hz with ⟨i, hi, hzi⟩ | ⟨j, hj, hzj⟩
  · apply foldl_addClass_ne_finite_of_mem _ _ (i, 0)
    · exact (pairList_mem _ _ _).mpr ⟨hi, List.length_pos.mpr hy1⟩
    · show pairClassify (px.getD i 0) (py.getD 0 0) ≠ MIClass.finite
      rw [hzi]
      exact pairClassify_left_zero _
  · apply foldl_addClass_ne_finite_of_mem _ _ (0, j)
    · exact (pairList_mem _ _ _).mpr ⟨List.length_pos.mpr hx1, hj⟩
    · show pairClassify (px.getD 0 0) (py.getD j 0) ≠ MIClass.finite
      rw [hzj]
      exact pairClassify_right_zero _

/-! ### `prepare_image` and the cropping loop -/

theorem deleteFirstCol_eq (g : Grid) (h : ∀ r ∈ g, r ≠ []) :
    deleteFirstCol g = some (g.map List.tail) := by
  unfold deleteFirstCol
  rw [if_pos]
  exact List.all_eq_true.mpr fun r hr => by
    simpa [List.isEmpty_iff] using h r hr

theorem deleteLastCol_eq (g : Grid) (h : ∀ r ∈ g, r ≠ []) :
    deleteLastCol g = some (g.map List.dropLast) := by
  unfold deleteLastCol
  rw [if_pos]
  exact List.all_eq_true.mpr fun r hr => by
    simpa [List.isEmpty_iff] using h r hr

theorem cropStep_eq (g : Grid) (w : ℕ) (hw : ∀ r ∈ g, r.length = w) (h2 : 2 ≤ w) :
    cropStep g = some (g.map fun r => (r.drop 1).take (w - 2)) := by
  unfold cropStep
  rw [deleteFirstCol_eq g fun r hr => by
    intro hnil
    have := hw r hr
    rw [hnil] at this
    simp at this
    omega]
  rw [Option.some_bind]
  rw [deleteLastCol_eq (g.map List.tail) fun r2 hr2 => by
    simp only [List.mem_map] at hr2
    obtain ⟨r, hr, rfl⟩ := hr2
    intro hnil
    have hl : r.tail.length = 0 := by rw [hnil]; rfl
    rw [List.length_tail, hw r hr] at hl
    omega]
  rw [List.map_map]
  congr 1
  apply List.map_congr_left
  intro r hr
  have hlen := hw r hr
  simp only [Function.comp_apply]
  rw [List.dropLast_eq_take, List.length_tail, hlen, ← List.drop_one]
  congr 1

theorem cropN_eq :
    ∀ (n : ℕ) (g : Grid) (w : ℕ), (∀ r ∈ g, r.length = w) → 2 * n ≤ w →
      cropN n g = some (g.map fun r => (r.drop n).take (w - 2 * n)) := by
  intro n
  induction n with
  | zero =>
    intro g w hw _
    show some g = _
    have h2 : g.map (fun r => (r.drop 0).take (w - 2 * 0)) = g := by
      calc g.map (fun r => (r.drop 0).take (w - 2 * 0))
          = g.map id := List.map_congr_left fun r hr => by
            simp only [List.drop_zero, Nat.mul_zero, Nat.sub_zero, id_eq]
            rw [← hw r hr]
            exact List.take_length r
        _ = g := List.map_id g
    rw [h2]
  | succ n ih =>
    intro g w hw h2n
    show (cropStep g).bind (cropN n) = _
    rw [cropStep_eq g w hw (by omega), Option.some_bind]
    rw [ih (g.map fun r => (r.drop 1).take (w - 2)) (w - 2)
      (fun r2 hr2 => by
        simp only [List.mem_map] at hr2
        obtain ⟨r, hr, rfl⟩ := hr2
        rw [List.length_take, List.length_drop, hw r hr]
        omega)
      (by omega)]
    rw [List.map_map]
    congr 1
    apply List.map_congr_left
    intro r hr
    simp only [Function.comp_apply]
    rw [List.drop_take, List.drop_drop, List.take_take]
    have h1 : 1 + n = n + 1 := by omega
    have h2 : min (w - 2 - 2 * n) (w - 2 - n) = w - 2 * (n + 1) := by omega
    rw [h1, h2]

theorem extract_green_rows (image : Grid3) (w : ℕ) (hw : ∀ r ∈ image, r.length = w) :
    ∀ r ∈ extract_green image, r.length = w := by
  intro r hr
  unfold extract_green at hr
  simp only [List.mem_map] at hr
  obtain ⟨row, hrow, rfl⟩ := hr
  rw [List.length_map]
  exact hw row hrow

theorem extract_red_rows (image : Grid3) (w : ℕ) (hw : ∀ r ∈ image, r.length = w) :
    ∀ r ∈ extract_red image, r.length = w := by
  intro r hr
  unfold extract_red at hr
  simp only [List.mem_map] at hr
  obtain ⟨row, hrow, rfl⟩ := hr
  rw [List.length_map]
  exact hw row hrow

theorem prepare_image_eq (image : Grid3) (w : ℕ) (hw : ∀ r ∈ image, r.length = w)
    (h40 : 40 ≤ w) :
    prepare_image image
      = some ((extract_green image).map fun r => (r.drop 20).take (w - 40),
          extract_red image) := by
  unfold prepare_image
  rw [cropN_eq 20 (extract_green image) w (extract_green_rows image w hw) (by omega)]
  rw [Option.map_some']

/-! ### `overlap` -/

theorem head_len (g : Grid) (hgt w : ℕ) (hl : g.length = hgt)
    (hw : ∀ r ∈ g, r.length = w) (hpos : 1 ≤ hgt) : (g.head?.getD []).length = w := by
  cases g with
  | nil => simp at hl; omega
  | cons r g =>
    simp only [List.head?, Option.getD_some]
    exact hw r (List.mem_cons_self r g)

theorem pyGet_eq_some_getD (row : Row) (idx : ℤ) (h0 : 0 ≤ idx)
    (h1 : idx < (row.length : ℤ)) : pyGet row idx = some (row.getD idx.toNat 0) := by
  unfold pyGet pyIdx
  rw [if_pos ⟨h0, h1⟩, Option.some_bind]
  exact get?_eq_some_getD row idx.toNat 0 (by omega)

theorem pyGet_eq_none_iff {α : Type} (l : List α) (i : ℤ) :
    pyGet l i = none ↔ i < -(l.length : ℤ) ∨ (l.length : ℤ) ≤ i := by
  unfold pyGet pyIdx
  by_cases h1 : 0 ≤ i ∧ i < (l.length : ℤ)
  · rw [if_pos h1, Option.some_bind]
    have hne : l.get? i.toNat ≠ none := by
      rw [Ne, List.get?_eq_none]
      omega
    constructor
    · intro hcon; exact absurd hcon hne
    · intro hcon; omega
  · rw [if_neg h1]
    by_cases h2 : -(l.length : ℤ) ≤ i ∧ i < 0
    · rw [if_pos h2, Option.some_bind]
      have hne : l.get? (i + l.length).toNat ≠ none := by
        rw [Ne, List.get?_eq_none]
        omega
      constructor
      · intro hcon; exact absurd hcon hne
      · intro hcon; omega
    · simp only [if_neg h2]
      constructor
      · intro _; omega
      · intro _; rfl

theorem overlap_eq_some (ref temp : Grid) (shift : ℤ) (hgt wr wt : ℕ)
    (hrh : ref.length = hgt) (hrw : ∀ r ∈ ref, r.length = wr)
    (hth : temp.length = hgt) (htw : ∀ r ∈ temp, r.length = wt)
    (hpos : 1 ≤ hgt) (hs0 : 0 ≤ 40 - shift) (hsw : 40 - shift + wr ≤ wt) :
    overlap ref temp shift
      = some ((List.range hgt).map fun i =>
          (List.range wr).map fun j : ℕ =>
            (temp.getD i []).getD ((40 - shift + (j : ℤ)).toNat) 0) := by
  unfold overlap
  rw [head_len ref hgt wr hrh hrw hpos, hrh]
  apply optList_some_of
  intro i hi
  simp only [List.mem_range] at hi
  apply optList_some_of
  intro j hj
  simp only [List.mem_range] at hj
  rw [get?_eq_some_getD temp i [] (by omega), Option.some_bind]
  have hrow : (temp.getD i []).length = wt := htw _ (getD_mem_of_lt temp i [] (by omega))
  have hidx0 : 0 ≤ 40 - shift + (j : ℤ) := by omega
  have hidx1 : 40 - shift + (j : ℤ) < ((temp.getD i []).length : ℤ) := by
    rw [hrow]
    omega
  exact pyGet_eq_some_getD _ _ hidx0 hidx1

theorem overlap_none_iff (ref temp : Grid) (shift : ℤ) (hgt wr wt : ℕ)
    (hrh : ref.length = hgt) (hrw : ∀ r ∈ ref, r.length = wr)
    (hth : temp.length = hgt) (htw : ∀ r ∈ temp, r.length = wt)
    (hpos : 1 ≤ hgt) (hwr : 1 ≤ wr) :
    (overlap ref temp shift = none
      ↔ shift < 40 + (wr : ℤ) - (wt : ℤ) ∨ 40 + (wt : ℤ) < shift) := by
  unfold overlap
  rw [head_len ref hgt wr hrh hrw hpos, hrh]
  rw [optList_eq_none_iff]
  constructor
  · rintro ⟨i, hi, hrownone⟩
    simp only [List.mem_range] at hi
    rw [optList_eq_none_iff] at hrownone
    obtain ⟨j, hj, hcell⟩ := hrownone
    simp only [List.mem_range] at hj
    rw [get?_eq_some_getD temp i [] (by omega), Option.some_bind] at hcell
    have hrowlen : (temp.getD i []).length = wt :=
      htw _ (getD_mem_of_lt temp i [] (by omega))
    rw [pyGet_eq_none_iff, hrowlen] at hcell
    omega
  · intro hcond
    refine ⟨0, List.mem_range.mpr (by omega), ?_⟩
    rw [optList_eq_none_iff]
    have hrowlen : (temp.getD 0 []).length = wt :=
      htw _ (getD_mem_of_lt temp 0 [] (by omega))
    rcases hcond with hlt | hgt2
    · refine ⟨wr - 1, List.mem_range.mpr (by omega), ?_⟩
      rw [get?_eq_some_getD temp 0 [] (by omega), Option.some_bind]
      rw [pyGet_eq_none_iff, hrowlen]
      right
      omega
    · refine ⟨0, List.mem_range.mpr (by omega), ?_⟩
      rw [get?_eq_some_getD temp 0 [] (by omega), Option.some_bind]
      rw [pyGet_eq_none_iff, hrowlen]
      left
      omega

/-! ### `registration` -/

theorem extract_green_length (image : Grid3) :
    (extract_green image).length = image.length := by
  unfold extract_green
  simp

theorem extract_red_length (image : Grid3) :
    (extract_red image).length = image.length := by
  unfold extract_red
  simp

theorem green_pixels_mem (image : Grid3) :
    ∀ q ∈ pixels (extract_green image), ∃ p ∈ pixels3 image, q = p.2.1 := by
  intro q hq
  unfold pixels extract_green at hq
  rw [List.mem_flatten] at hq
  obtain ⟨r2, hr2, hqr⟩ := hq
  simp only [List.mem_map] at hr2
  obtain ⟨row, hrow, rfl⟩ := hr2
  simp only [List.mem_map] at hqr
  obtain ⟨p, hp, rfl⟩ := hqr
  exact ⟨p, List.mem_flatten.mpr ⟨row, hrow, hp⟩, rfl⟩

theorem red_pixels_mem (image : Grid3) :
    ∀ q ∈ pixels (extract_red image), ∃ p ∈ pixels3 image, q = p.1 := by
  intro q hq
  unfold pixels extract_red at hq
  rw [List.mem_flatten] at hq
  obtain ⟨r2, hr2, hqr⟩ := hq
  simp only [List.mem_map] at hr2
  obtain ⟨row, hrow, rfl⟩ := hr2
  simp only [List.mem_map] at hqr
  obtain ⟨p, hp, rfl⟩ := hqr
  exact ⟨p, List.mem_flatten.mpr ⟨row, hrow, hp⟩, rfl⟩

theorem cropped_pixels_mem (image : Grid3) (w : ℕ) :
    ∀ q ∈ pixels ((extract_green image).map fun r => (r.drop 20).take (w - 40)),
      ∃ p ∈ pixels3 image, q = p.2.1 := by
  intro q hq
  unfold pixels at hq
  rw [List.mem_flatten] at hq
  obtain ⟨r2, hr2, hqr⟩ := hq
  simp only [List.mem_map] at hr2
  obtain ⟨r, hr, rfl⟩ := hr2
  have hq2 : q ∈ r := List.drop_subset 20 r (List.take_subset _ _ hqr)
  exact green_pixels_mem image q (List.mem_flatten.mpr ⟨r, hr, hq2⟩)

theorem cropped_rows (image : Grid3) (w : ℕ) (hw : ∀ r ∈ image, r.length = w)
    (h40 : 40 ≤ w) :
    ∀ r2 ∈ (extract_green image).map fun r => (r.drop 20).take (w - 40),
      r2.length = w - 40 := by
  intro r2 hr2
  simp only [List.mem_map] at hr2
  obtain ⟨r, hr, rfl⟩ := hr2
  rw [List.length_take, List.length_drop]
  rw [extract_green_rows image w hw r hr]
  omega

theorem cropped_length (image : Grid3) (w : ℕ) :
    ((extract_green image).map fun r => (r.drop 20).take (w - 40)).length
      = image.length := by
  rw [List.length_map, extract_green_length]

theorem region_pixels_mem (temp : Grid) (hgt wr wt : ℕ) (shift : ℤ)
    (hth : temp.length = hgt) (htw : ∀ r ∈ temp, r.length = wt)
    (hs0 : 0 ≤ 40 - shift) (hsw : 40 - shift + wr ≤ wt) :
    ∀ q ∈ pixels ((List.range hgt).map fun i =>
        (List.range wr).map fun j : ℕ =>
          (temp.getD i []).getD ((40 - shift + (j : ℤ)).toNat) 0),
      q ∈ pixels temp := by
  intro q hq
  unfold pixels at *
  rw [List.mem_flatten] at hq
  obtain ⟨row2, hrow2, hqrow⟩ := hq
  simp only [List.mem_map, List.mem_range] at hrow2
  obtain ⟨i, hi, rfl⟩ := hrow2
  simp only [List.mem_map, List.mem_range] at hqrow
  obtain ⟨j, hj, rfl⟩ := hqrow
  rw [List.mem_flatten]
  refine ⟨temp.getD i [], getD_mem_of_lt temp i [] (by omega), ?_⟩
  apply getD_mem_of_lt
  rw [htw _ (getD_mem_of_lt temp i [] (by omega))]
  omega

theorem region_rows (_temp : Grid) (hgt wr : ℕ) (f : ℕ → ℕ → ℚ) :
    ∀ r2 ∈ (List.range hgt).map fun i => (List.range wr).map fun j : ℕ => f i j,
      r2.length = wr := by
  intro r2 hr2
  simp only [List.mem_map, List.mem_range] at hr2
  obtain ⟨i, _, rfl⟩ := hr2
  simp

theorem pixCount_eq (g : Grid) (hgt w : ℕ) (hl : g.length = hgt)
    (hw : ∀ r ∈ g, r.length = w) : pixCount g = hgt * w := by
  unfold pixCount pixels
  rw [List.length_flatten, sum_map_eq_card_mul g List.length w hw, hl]

theorem marginal_package (g : Grid) (b : ℕ) (hb : b ≠ 0) (hscan : b * numBins b ≤ 256)
    (hq : ∀ q ∈ pixels g, 0 ≤ pyTrunc q ∧ pyTrunc q ≤ 254) (hc : pixCount g ≠ 0) :
    ∃ l, marginal_pmf g b = some l ∧ l.sum = 1 ∧ (∀ a ∈ l, 0 ≤ a) ∧ l ≠ [] := by
  have heq := marginal_pmf_eq g b hb hscan fun q hq2 =>
    ⟨by have := hq q hq2; omega, by have := hq q hq2; omega⟩
  refine ⟨_, heq, marginal_sum_one_aux g b hb hq hc,
    marginal_nonneg_aux g b _ heq, ?_⟩
  apply List.ne_nil_of_length_pos
  rw [marginal_len_aux g b _ heq]
  exact Nat.succ_pos _

theorem scan3 : 3 * numBins 3 ≤ 256 := by decide

theorem mi_some_of_images (image1 image2 : Grid) (b : ℕ) (hb : b ≠ 0)
    (hscan : b * numBins b ≤ 256)
    (hq1 : ∀ q ∈ pixels image1, 0 ≤ pyTrunc q ∧ pyTrunc q ≤ 254)
    (hq2 : ∀ q ∈ pixels image2, 0 ≤ pyTrunc q ∧ pyTrunc q ≤ 254)
    (hc1 : pixCount image1 ≠ 0) (hc2 : pixCount image2 ≠ 0) :
    ∃ c, mutual_information image1 image2 b = some c := by
  obtain ⟨px, hpx, hsx, _, hnx⟩ := marginal_package image1 b hb hscan hq1 hc1
  obtain ⟨py, hpy, hsy, _, hny⟩ := marginal_package image2 b hb hscan hq2 hc2
  exact ⟨_, mutual_information_eq image1 image2 b px py hpx hpy
    (jointTotal_pos_of_sum_one px py hsx hsy hnx hny)⟩

theorem registration_spec (image : Grid3) (hgt w : ℕ)
    (hh : image.length = hgt) (hw : ∀ r ∈ image, r.length = w)
    (h1 : 1 ≤ hgt) (h41 : 41 ≤ w)
    (hG : ∀ p ∈ pixels3 image, 0 ≤ pyTrunc p.2.1 ∧ pyTrunc p.2.1 ≤ 254)
    (hR : ∀ p ∈ pixels3 image, 0 ≤ pyTrunc p.1 ∧ pyTrunc p.1 ≤ 254) :
    ∃ rs : List MIClass, registration image = some rs ∧ rs.length = 41 ∧
      ∀ k : ℕ, k < 41 → rs.get? k = shiftScore image k ∧ (shiftScore image k).isSome := by
  have hprep := prepare_image_eq image w hw (by omega)
  set reference := (extract_green image).map fun r => (r.drop 20).take (w - 40) with href
  set template := extract_red image with htemp
  -- facts about the reference
  have hrefl : reference.length = hgt := by rw [href, cropped_length, hh]
  have hrefw : ∀ r ∈ reference, r.length = w - 40 := cropped_rows image w hw (by omega)
  have hrefq : ∀ q ∈ pixels reference, 0 ≤ pyTrunc q ∧ pyTrunc q ≤ 254 := by
    intro q hq
    obtain ⟨p, hp, rfl⟩ := cropped_pixels_mem image w q hq
    exact hG p hp
  have hrefc : pixCount reference ≠ 0 := by
    rw [pixCount_eq reference hgt (w - 40) hrefl hrefw]
    have : 0 < hgt * (w - 40) := Nat.mul_pos (by omega) (by omega)
    omega
  -- facts about the template
  have htempl : template.length = hgt := by rw [htemp, extract_red_length, hh]
  have htempw : ∀ r ∈ template, r.length = w := extract_red_rows image w hw
  -- the per-shift loop body always returns a value
  have hstep : ∀ k : ℕ, k < 41 →
      ∃ c, ((overlap reference template (k : ℤ)).bind fun region =>
        mutual_information reference region 3) = some c := by
    intro k hk
    have hs0 : (0 : ℤ) ≤ 40 - (k : ℤ) := by omega
    have hsw : 40 - (k : ℤ) + ((w - 40 : ℕ) : ℤ) ≤ (w : ℤ) := by omega
    rw [overlap_eq_some reference template (k : ℤ) hgt (w - 40) w hrefl hrefw
      htempl htempw h1 hs0 hsw, Option.some_bind]
    set region := (List.range hgt).map fun i =>
      (List.range (w - 40)).map fun j : ℕ =>
        (template.getD i []).getD ((40 - (k : ℤ) + (j : ℤ)).toNat) 0 with hreg
    have hregw : ∀ r ∈ region, r.length = w - 40 := region_rows template hgt (w - 40) _
    have hregl : region.length = hgt := by rw [hreg]; simp
    have hregq : ∀ q ∈ pixels region, 0 ≤ pyTrunc q ∧ pyTrunc q ≤ 254 := by
      intro q hq
      have hmem := region_pixels_mem template hgt (w - 40) w (k : ℤ)
        htempl htempw hs0 hsw q hq
      obtain ⟨p, hp, rfl⟩ := red_pixels_mem image q hmem
      exact hR p hp
    have hregc : pixCount region ≠ 0 := by
      rw [pixCount_eq region hgt (w - 40) hregl hregw]
      have : 0 < hgt * (w - 40) := Nat.mul_pos (by omega) (by omega)
      omega
    exact mi_some_of_images reference region 3 (by omega) scan3 hrefq hregq hrefc hregc
  -- assemble the loop
  have hfun : ∀ k ∈ List.range 41,
      ((fun k : ℕ => (overlap reference template (k : ℤ)).bind fun region =>
        mutual_information reference region 3) k)
      = some (((overlap reference template (k : ℤ)).bind fun region =>
          mutual_information reference region 3).getD MIClass.finite) := by
    intro k hk
    simp only [List.mem_range] at hk
    obtain ⟨c, hc⟩ := hstep k hk
    show ((overlap reference template (k : ℤ)).bind fun region =>
        mutual_information reference region 3) = _
    rw [hc]
    rfl
  have hloop := optList_some_of _ _ (List.range 41) hfun
  refine ⟨(List.range 41).map fun a : ℕ =>
      (((overlap reference template (a : ℤ)).bind fun region =>
        mutual_information reference region 3).getD MIClass.finite), ?_, ?_, ?_⟩
  · unfold registration
    rw [hprep, Option.some_bind]
    exact hloop
  · simp
  · intro k hk
    have hget : ((List.range 41).map fun k : ℕ =>
        (((overlap reference template (k : ℤ)).bind fun region =>
          mutual_information reference region 3).getD MIClass.finite)).get? k
        = some (((overlap reference template (k : ℤ)).bind fun region =>
            mutual_information reference region 3).getD MIClass.finite) := by
      rw [List.get?_map, List.get?_range hk]
      rfl
    obtain ⟨c, hc⟩ := hstep k hk
    have hscore : shiftScore image k
        = ((overlap reference template (k : ℤ)).bind fun region =>
            mutual_information reference region 3) := by
      unfold shiftScore
      rw [hprep, Option.some_bind]
    constructor
    · rw [hget, hscore, hc]
      rfl
    · rw [hscore, hc]
      rfl

theorem mi_nonfinite_of_zero_bin (image1 image2 : Grid) (b : ℕ) (hb : b ≠ 0)
    (hscan : b * numBins b ≤ 256)
    (hq1 : ∀ q ∈ pixels image1, 0 ≤ pyTrunc q ∧ pyTrunc q ≤ 254)
    (hq2 : ∀ q ∈ pixels image2, 0 ≤ pyTrunc q ∧ pyTrunc q ≤ 254)
    (hc1 : pixCount image1 ≠ 0) (hc2 : pixCount image2 ≠ 0)
    (hz : (∃ m, m < numBins b ∧ binTotal image1 (m * b) b = 0)
        ∨ ∃ m, m < numBins b ∧ binTotal image2 (m * b) b = 0) :
    ∃ c, mutual_information image1 image2 b = some c ∧ c ≠ MIClass.finite := by
  obtain ⟨px, hpx, hsx, hxn, hnx⟩ := marginal_package image1 b hb hscan hq1 hc1
  obtain ⟨py, hpy, hsy, hyn, hny⟩ := marginal_package image2 b hb hscan hq2 hc2
  apply mi_zero_bin_aux image1 image2 b px py hpx hpy
    (jointTotal_pos_of_sum_one px py hsx hsy hnx hny) hnx hny
  have hqz1 : ∀ q ∈ pixels image1, -256 ≤ pyTrunc q ∧ pyTrunc q ≤ 255 := fun q hq =>
    ⟨by have := hq1 q hq; omega, by have := hq1 q hq; omega⟩
  have hqz2 : ∀ q ∈ pixels image2, -256 ≤ pyTrunc q ∧ pyTrunc q ≤ 255 := fun q hq =>
    ⟨by have := hq2 q hq; omega, by have := hq2 q hq; omega⟩
  rcases hz with ⟨m, hm, hzt⟩ | ⟨m, hm, hzt⟩
  · left
    have heq := marginal_pmf_eq image1 b hb hscan hqz1
    rw [hpx] at heq
    have hpx_eq := Option.some_inj.mp heq
    refine ⟨m, ?_, ?_⟩
    · rw [marginal_len_aux image1 b px hpx]
      exact hm
    · rw [hpx_eq]
      rw [getD_map_of_lt _ (binStarts b) m (by rw [binStarts_length]; omega) 0 0]
      rw [show (binStarts b).getD m 0 = m * b from by
        unfold binStarts; rw [getD_map_range _ _ m hm 0]]
      rw [hzt]
      simp
  · right
    have heq := marginal_pmf_eq image2 b hb hscan hqz2
    rw [hpy] at heq
    have hpy_eq := Option.some_inj.mp heq
    refine ⟨m, ?_, ?_⟩
    · rw [marginal_len_aux image2 b py hpy]
      exact hm
    · rw [hpy_eq]
      rw [getD_map_of_lt _ (binStarts b) m (by rw [binStarts_length]; omega) 0 0]
      rw [show (binStarts b).getD m 0 = m * b from by
        unfold binStarts; rw [getD_map_range _ _ m hm 0]]
      rw [hzt]
      simp

/-! ### Claim theorems, witnesses and counterexamples -/

set_option maxRecDepth 100000

/-- Claim C1: for every rectangular input image of height ≥ 1 and width ≥ 41
(so the cropped reference exists and the comparison is exactly 40 columns
wider) whose red and green samples truncate into the nominal range (255 itself
excluded, since raw bin 255 is never scanned with `bin_size = 3` — see C3),
`registration` returns an ordered sequence of exactly 41 scores: entry `k` is
the score of shift `k`, so the shifts run 0..40 in ascending order (the Python
loop appends bare scores; the shift component of each pair is its position). -/
theorem claim_C1_registration_shape (image : Grid3) (hgt w : ℕ)
    (hh : image.length = hgt) (hw : ∀ r ∈ image, r.length = w)
    (h1 : 1 ≤ hgt) (h41 : 41 ≤ w)
    (hG : ∀ p ∈ pixels3 image, 0 ≤ pyTrunc p.2.1 ∧ pyTrunc p.2.1 ≤ 254)
    (hR : ∀ p ∈ pixels3 image, 0 ≤ pyTrunc p.1 ∧ pyTrunc p.1 ≤ 254) :
    ∃ rs : List MIClass, registration image = some rs ∧ rs.length = 41 ∧
      ∀ k : ℕ, k < 41 → rs.get? k = shiftScore image k ∧ (shiftScore image k).isSome :=
  registration_spec image hgt w hh hw h1 h41 hG hR

/-- Witness for C1 at a concrete 1 × 41 image with constant pixel (1, 2, 3). -/
theorem claim_C1_witness :
    (∀ r ∈ ([List.replicate 41 ((1 : ℚ), (2 : ℚ), (3 : ℚ))] : Grid3), r.length = 41)
  ∧ ∃ rs : List MIClass,
      registration [List.replicate 41 ((1 : ℚ), (2 : ℚ), (3 : ℚ))] = some rs
      ∧ rs.length = 41
      ∧ ∀ k : ℕ, k < 41 →
          rs.get? k = shiftScore [List.replicate 41 ((1 : ℚ), (2 : ℚ), (3 : ℚ))] k
          ∧ (shiftScore [List.replicate 41 ((1 : ℚ), (2 : ℚ), (3 : ℚ))] k).isSome :=
  ⟨by decide,
   claim_C1_registration_shape [List.replicate 41 ((1 : ℚ), (2 : ℚ), (3 : ℚ))] 1 41
     (by decide) (by decide) (by decide) (by decide) (by decide) (by decide)⟩

/-- Claim C2: for shifts in [0, 40] and a comparison at least 40 columns wider
than the reference, `overlap` returns a grid with the reference's dimensions
whose cell `(i, j)` is `temp[i][(40 - shift) + j]`. -/
theorem claim_C2_overlap_formula (ref temp : Grid) (shift : ℕ) (hgt wr wt : ℕ)
    (hrh : ref.length = hgt) (hrw : ∀ r ∈ ref, r.length = wr)
    (hth : temp.length = hgt) (htw : ∀ r ∈ temp, r.length = wt)
    (hpos : 1 ≤ hgt) (hshift : shift ≤ 40) (hwt : wr + 40 ≤ wt) :
    ∃ g, overlap ref temp (shift : ℤ) = some g ∧ g.length = hgt ∧
      (∀ row ∈ g, row.length = wr) ∧
      ∀ i j : ℕ, i < hgt → j < wr →
        getCell g i j = getCell temp i ((40 - shift) + j) := by
  have hs0 : (0 : ℤ) ≤ 40 - (shift : ℤ) := by omega
  have hsw : 40 - (shift : ℤ) + ((wr : ℕ) : ℤ) ≤ ((wt : ℕ) : ℤ) := by omega
  refine ⟨_, overlap_eq_some ref temp (shift : ℤ) hgt wr wt hrh hrw hth htw hpos
    hs0 hsw, by simp, region_rows temp hgt wr _, ?_⟩
  intro i j hi hj
  unfold getCell
  rw [getD_map_range _ hgt i hi []]
  rw [getD_map_range _ wr j hj 0]
  congr 1
  omega

/-- Witness for C2: a 1 × 1 reference against a 1 × 41 comparison holding the
column indices 0..40, at shift 0 (the window starts at column 40). -/
theorem claim_C2_witness :
    (∀ r ∈ ([[(5 : ℚ)]] : Grid), r.length = 1)
  ∧ ∃ g, overlap [[(5 : ℚ)]] [(List.range 41).map fun n : ℕ => (n : ℚ)]
        ((0 : ℕ) : ℤ) = some g
      ∧ g.length = 1 ∧ (∀ row ∈ g, row.length = 1)
      ∧ ∀ i j : ℕ, i < 1 → j < 1 →
          getCell g i j
            = getCell [(List.range 41).map fun n : ℕ => (n : ℚ)] i ((40 - 0) + j) :=
  ⟨by decide,
   claim_C2_overlap_formula [[(5 : ℚ)]] [(List.range 41).map fun n : ℕ => (n : ℚ)]
     0 1 1 41 (by decide) (by decide) (by decide) (by decide) (by decide) (by decide)
     (by decide)⟩

/-- Counterexample to C3 as stated: the one-pixel image `[[255]]` has all its
truncated intensities in [0, 255], yet with `bin_size = 1` the entries of
`marginal_pmf` sum to 0, not 1: the binning loop `range(0, 255, 1)` never
reads raw histogram slot 255, so the single pixel is dropped from every output
bin while still inflating the divisor `count`. -/
theorem claim_C3_counterexample :
    (marginal_pmf [[(255 : ℚ)]] 1).map List.sum = some 0 := by
  rw [marginal_pmf_eq [[(255 : ℚ)]] 1 (by omega) (by decide) (by decide)]
  rw [Option.map_some']
  congr 1
  apply List.sum_eq_zero
  intro x hx
  simp only [List.mem_map] at hx
  obtain ⟨i, hi, rfl⟩ := hx
  have hz : binTotal [[(255 : ℚ)]] i 1 = 0 := by
    unfold binStarts at hi
    simp only [List.mem_map, List.mem_range] at hi
    obtain ⟨m, hm, rfl⟩ := hi
    unfold binTotal
    apply List.sum_eq_zero
    intro y hy
    simp only [List.mem_map, List.mem_range] at hy
    obtain ⟨j, hj, rfl⟩ := hy
    unfold countWrap
    rw [List.countP_eq_zero]
    intro q hq
    have hq255 : q = (255 : ℚ) := by
      simpa [pixels] using hq
    subst hq255
    have h255 : wrapIdx (pyTrunc 255) = 255 := by decide
    have hnb : numBins 1 = 255 := by decide
    simp only [h255, beq_iff_eq]
    omega
  rw [hz]
  simp

/-- Claim C3 amended: the entries of `marginal_pmf` sum to exactly 1 provided
every pixel's truncated intensity lies in [0, 254] (a 255-intensity pixel is
dropped by the scan for the bin sizes the driver uses, see the counterexample)
and the bin scan stays inside the 256-entry table
(`bin_size * ⌈255/bin_size⌉ ≤ 256`, which is also what `marginal_pmf`
returning at all requires). -/
theorem claim_C3_amended_sum_one (image : Grid) (b : ℕ) (hb : b ≠ 0)
    (hscan : b * numBins b ≤ 256)
    (hq : ∀ q ∈ pixels image, 0 ≤ pyTrunc q ∧ pyTrunc q ≤ 254)
    (hc : pixCount image ≠ 0) :
    ∃ l, marginal_pmf image b = some l ∧ l.sum = 1 := by
  obtain ⟨l, h1, h2, _, _⟩ := marginal_package image b hb hscan hq hc
  exact ⟨l, h1, h2⟩

/-- Witness for amended C3 at the one-pixel image `[[0]]` with `bin_size = 85`. -/
theorem claim_C3_witness :
    85 * numBins 85 ≤ 256
  ∧ ∃ l, marginal_pmf [[(0 : ℚ)]] 85 = some l ∧ l.sum = 1 :=
  ⟨by decide,
   claim_C3_amended_sum_one [[(0 : ℚ)]] 85 (by decide) (by decide) (by decide)
     (by decide)⟩

/-- Counterexample to C4 as stated: with `bin_size = 1` the returned sequence
has 255 entries (`len(range(0, 255, 1))`), not `ceil(256/1) = 256`. -/
theorem claim_C4_counterexample :
    (marginal_pmf [[(0 : ℚ)]] 1).map List.length = some 255 ∧ (255 : ℕ) ≠ 256 := by
  constructor
  · rw [marginal_pmf_eq [[(0 : ℚ)]] 1 (by omega) (by decide) (by decide),
      Option.map_some']
    rw [List.length_map, binStarts_length]
    decide
  · decide

/-- Claim C4 amended: whenever `marginal_pmf` returns, its length is
`len(range(0, 255, bin_size)) = ⌈255 / bin_size⌉ = 254 / bin_size + 1` —
determined solely by `bin_size`, but one bin short of the claimed
`ceil(256 / bin_size)` whenever `bin_size` divides 255. -/
theorem claim_C4_amended_length (image : Grid) (b : ℕ) (l : List ℚ)
    (h : marginal_pmf image b = some l) : l.length = 254 / b + 1 :=
  marginal_len_aux image b l h

/-- Witness for amended C4 at the one-pixel image `[[0]]` with `bin_size = 85`
(3 entries). -/
theorem claim_C4_witness :
    marginal_pmf [[(0 : ℚ)]] 85
      = some ((binStarts 85).map fun i =>
          (binTotal [[(0 : ℚ)]] i 85 : ℚ) / (pixCount [[(0 : ℚ)]] : ℚ))
  ∧ ((binStarts 85).map fun i =>
      (binTotal [[(0 : ℚ)]] i 85 : ℚ) / (pixCount [[(0 : ℚ)]] : ℚ)).length
      = 254 / 85 + 1 :=
  ⟨marginal_pmf_eq [[(0 : ℚ)]] 85 (by decide) (by decide) (by decide),
   claim_C4_amended_length [[(0 : ℚ)]] 85 _
     (marginal_pmf_eq [[(0 : ℚ)]] 85 (by decide) (by decide) (by decide))⟩

/-- Claim C5: for non-empty marginal PMFs with nonnegative entries and at
least one strictly positive entry, `joint_pmf` is a `len(x) × len(y)` grid,
cell `(i, j)` is proportional (with one positive global constant) to
`x[i] + y[j]` — the additive combination — and the normalized cells sum
to exactly 1. -/
theorem claim_C5_joint_pmf (x y : List ℚ) (hx : x ≠ []) (hy : y ≠ [])
    (hxn : ∀ a ∈ x, 0 ≤ a) (hyn : ∀ a ∈ y, 0 ≤ a)
    (hpos : (∃ a ∈ x, 0 < a) ∨ ∃ a ∈ y, 0 < a) :
    (joint_pmf x y).length = x.length
  ∧ (∀ row ∈ joint_pmf x y, row.length = y.length)
  ∧ (∃ c : ℚ, 0 < c ∧ ∀ i j : ℕ, i < x.length → j < y.length →
      getCell (joint_pmf x y) i j = c * (x.getD i 0 + y.getD j 0))
  ∧ ((joint_pmf x y).map List.sum).sum = 1 := by
  have htpos := jointTotal_pos x y hx hy hxn hyn hpos
  refine ⟨joint_pmf_length x y, joint_pmf_row_length x y,
    ⟨(jointTotal x y)⁻¹, inv_pos.mpr htpos, ?_⟩,
    joint_pmf_sum x y (ne_of_gt htpos)⟩
  intro i j hi hj
  rw [joint_cell_eq x y i j hi hj, div_eq_inv_mul]

/-- Witness for C5 at `x = [1]`, `y = [1]`. -/
theorem claim_C5_witness :
    (∀ a ∈ ([(1 : ℚ)] : List ℚ), 0 ≤ a)
  ∧ ((joint_pmf [(1 : ℚ)] [(1 : ℚ)]).length = 1
      ∧ (∀ row ∈ joint_pmf [(1 : ℚ)] [(1 : ℚ)], row.length = 1)
      ∧ (∃ c : ℚ, 0 < c ∧ ∀ i j : ℕ, i < 1 → j < 1 →
          getCell (joint_pmf [(1 : ℚ)] [(1 : ℚ)]) i j
            = c * (([(1 : ℚ)] : List ℚ).getD i 0 + ([(1 : ℚ)] : List ℚ).getD j 0))
      ∧ ((joint_pmf [(1 : ℚ)] [(1 : ℚ)]).map List.sum).sum = 1) :=
  ⟨by decide,
   claim_C5_joint_pmf [(1 : ℚ)] [(1 : ℚ)] (by decide) (by decide) (by decide)
     (by decide) (Or.inl ⟨1, by decide, by decide⟩)⟩

/-- Counterexample to C6 as stated: on the pair `[[0]], [[0]]` with
`bin_size = 85`, marginal bin 1 of both images has zero probability mass
(`binTotal = 0`), yet `mutual_information` does not raise a floating-point
fault: all operands are NumPy `float64` scalars, so `pxy/0` only warns and
yields `inf`/`nan`, and the returned score is silently `nan`. -/
theorem claim_C6_counterexample :
    binTotal [[(0 : ℚ)]] (1 * 85) 85 = 0
  ∧ ∃ c, mutual_information [[(0 : ℚ)]] [[(0 : ℚ)]] 85 = some c
      ∧ c ≠ MIClass.finite :=
  ⟨by decide,
   mi_nonfinite_of_zero_bin [[(0 : ℚ)]] [[(0 : ℚ)]] 85 (by decide) (by decide)
     (by decide) (by decide) (by decide) (by decide)
     (Or.inl ⟨1, by decide, by decide⟩)⟩

/-- Claim C6 amended: whenever some marginal bin of either image has zero
probability mass (zero raw count `binTotal` for that bin), `mutual_information`
does NOT abort: NumPy `float64` division by the zero product `px[i]*py[j]`
yields `+inf` (when the additive joint cell is positive) or `nan` (when it is
zero, i.e. both marginals vanish), `math.log` propagates them, and the
returned score is a silently nonfinite `inf` or `nan`. -/
theorem claim_C6_amended_nonfinite (image1 image2 : Grid) (b : ℕ) (hb : b ≠ 0)
    (hscan : b * numBins b ≤ 256)
    (hq1 : ∀ q ∈ pixels image1, 0 ≤ pyTrunc q ∧ pyTrunc q ≤ 254)
    (hq2 : ∀ q ∈ pixels image2, 0 ≤ pyTrunc q ∧ pyTrunc q ≤ 254)
    (hc1 : pixCount image1 ≠ 0) (hc2 : pixCount image2 ≠ 0)
    (hz : (∃ m, m < numBins b ∧ binTotal image1 (m * b) b = 0)
        ∨ ∃ m, m < numBins b ∧ binTotal image2 (m * b) b = 0) :
    ∃ c, mutual_information image1 image2 b = some c ∧ c ≠ MIClass.finite :=
  mi_nonfinite_of_zero_bin image1 image2 b hb hscan hq1 hq2 hc1 hc2 hz

/-- Witness for amended C6 on the pair `[[0]], [[1]]` with `bin_size = 85`. -/
theorem claim_C6_witness :
    (∃ m, m < numBins 85 ∧ binTotal [[(0 : ℚ)]] (m * 85) 85 = 0)
  ∧ ∃ c, mutual_information [[(0 : ℚ)]] [[(1 : ℚ)]] 85 = some c
      ∧ c ≠ MIClass.finite :=
  ⟨⟨1, by decide, by decide⟩,
   claim_C6_amended_nonfinite [[(0 : ℚ)]] [[(1 : ℚ)]] 85 (by decide) (by decide)
     (by decide) (by decide) (by decide) (by decide)
     (Or.inl ⟨1, by decide, by decide⟩)⟩

/-- Counterexample to C7 as stated: `shift = 41` is outside [0, 40], with a
comparison exactly 40 columns wider than the 1 × 1 reference, yet `overlap`
returns a result instead of failing: the column index `(40 - 41) + 0 = -1`
wraps around (Python negative indexing) to the comparison's last column. -/
theorem claim_C7_counterexample :
    overlap [[(1 : ℚ)]] [List.replicate 41 (0 : ℚ)] 41 = some [[(0 : ℚ)]] := by
  decide

/-- Claim C7 amended: `overlap` raises an index error exactly when the column
formula leaves even Python's wraparound range: for a rectangular reference
(height ≥ 1, width ≥ 1) and comparison, it fails iff
`shift < 40 + width(ref) - width(temp)` or `shift > 40 + width(temp)`.  In
particular negative shifts (with a comparison exactly 40 wider) and
too-narrow comparisons at small shifts do fail, but every shift in
`41 .. 40 + width(temp)` silently wraps and returns a result. -/
theorem claim_C7_amended_bounds (ref temp : Grid) (shift : ℤ) (hgt wr wt : ℕ)
    (hrh : ref.length = hgt) (hrw : ∀ r ∈ ref, r.length = wr)
    (hth : temp.length = hgt) (htw : ∀ r ∈ temp, r.length = wt)
    (hpos : 1 ≤ hgt) (hwr : 1 ≤ wr) :
    (overlap ref temp shift = none
      ↔ shift < 40 + (wr : ℤ) - (wt : ℤ) ∨ 40 + (wt : ℤ) < shift) :=
  overlap_none_iff ref temp shift hgt wr wt hrh hrw hth htw hpos hwr

/-- Witness for amended C7 at `shift = -1` on a 1 × 1 reference and 1 × 41
comparison (the failing side of the iff). -/
theorem claim_C7_witness :
    (∀ r ∈ ([List.replicate 41 (0 : ℚ)] : Grid), r.length = 41)
  ∧ (overlap [[(1 : ℚ)]] [List.replicate 41 (0 : ℚ)] (-1) = none
      ↔ (-1 : ℤ) < 40 + ((1 : ℕ) : ℤ) - ((41 : ℕ) : ℤ)
        ∨ 40 + ((41 : ℕ) : ℤ) < (-1 : ℤ)) :=
  ⟨by decide,
   claim_C7_amended_bounds [[(1 : ℚ)]] [List.replicate 41 (0 : ℚ)] (-1) 1 1 41
     (by decide) (by decide) (by decide) (by decide) (by decide) (by decide)⟩

/-- Claim C8: for every rectangular 3-channel image of width `W ≥ 40`,
`prepare_image` returns the green channel with 20 columns removed from each
side (width `W - 40`, cell `(i, j)` being green cell `(i, j + 20)`) as the
reference, and the red channel at full width `W` as the comparison, so the
reference is exactly 40 columns narrower than the comparison. -/
theorem claim_C8_prepare_image (image : Grid3) (w : ℕ)
    (hw : ∀ r ∈ image, r.length = w) (h40 : 40 ≤ w) :
    ∃ ref comp, prepare_image image = some (ref, comp)
      ∧ comp = extract_red image
      ∧ (∀ r ∈ comp, r.length = w)
      ∧ ref.length = image.length
      ∧ (∀ r ∈ ref, r.length = w - 40)
      ∧ ∀ i j : ℕ, i < image.length → j < w - 40 →
          getCell ref i j = getCell (extract_green image) i (j + 20) := by
  refine ⟨_, _, prepare_image_eq image w hw h40, rfl, extract_red_rows image w hw,
    cropped_length image w, cropped_rows image w hw h40, ?_⟩
  intro i j hi hj
  unfold getCell
  rw [getD_map_of_lt _ (extract_green image) i (by rw [extract_green_length]; omega)
    [] []]
  have hgil : ((extract_green image).getD i []).length = w :=
    extract_green_rows image w hw _
      (getD_mem_of_lt _ i [] (by rw [extract_green_length]; omega))
  rw [List.getD_eq_getD_get?, List.get?_take (by omega), List.get?_drop]
  rw [← List.getD_eq_getD_get?]
  congr 1
  omega

/-- Witness for C8 at a concrete 1 × 41 image with constant pixel (1, 2, 3). -/
theorem claim_C8_witness :
    (∀ r ∈ ([List.replicate 41 ((1 : ℚ), (2 : ℚ), (3 : ℚ))] : Grid3), r.length = 41)
  ∧ ∃ ref comp,
      prepare_image [List.replicate 41 ((1 : ℚ), (2 : ℚ), (3 : ℚ))] = some (ref, comp)
      ∧ comp = extract_red [List.replicate 41 ((1 : ℚ), (2 : ℚ), (3 : ℚ))]
      ∧ (∀ r ∈ comp, r.length = 41)
      ∧ ref.length = ([List.replicate 41 ((1 : ℚ), (2 : ℚ), (3 : ℚ))] : Grid3).length
      ∧ (∀ r ∈ ref, r.length = 41 - 40)
      ∧ ∀ i j : ℕ,
          i < ([List.replicate 41 ((1 : ℚ), (2 : ℚ), (3 : ℚ))] : Grid3).length →
          j < 41 - 40 →
          getCell ref i j
            = getCell (extract_green [List.replicate 41 ((1 : ℚ), (2 : ℚ), (3 : ℚ))])
                i (j + 20) :=
  ⟨by decide,
   claim_C8_prepare_image [List.replicate 41 ((1 : ℚ), (2 : ℚ), (3 : ℚ))] 41
     (by decide) (by decide)⟩

/-- Claim C9: for images whose truncated intensities lie in [0, 255],
`marginal_pmf` with `bin_size = 255` (one bin over slots 0..254) and
`bin_size = 256` (one bin over slots 0..255) completes without any
index-out-of-range access into the 256-entry raw histogram. -/
theorem claim_C9_boundary_bins (image : Grid)
    (hq : ∀ q ∈ pixels image, 0 ≤ pyTrunc q ∧ pyTrunc q ≤ 255) :
    (marginal_pmf image 255).isSome ∧ (marginal_pmf image 256).isSome := by
  have hq2 : ∀ q ∈ pixels image, -256 ≤ pyTrunc q ∧ pyTrunc q ≤ 255 := fun q h =>
    ⟨by have := hq q h; omega, (hq q h).2⟩
  constructor
  · rw [marginal_pmf_eq image 255 (by omega) (by decide) hq2]
    rfl
  · rw [marginal_pmf_eq image 256 (by omega) (by decide) hq2]
    rfl

/-- Witness for C9 at the one-pixel boundary image `[[255]]`. -/
theorem claim_C9_witness :
    (∀ q ∈ pixels [[(255 : ℚ)]], 0 ≤ pyTrunc q ∧ pyTrunc q ≤ 255)
  ∧ (marginal_pmf [[(255 : ℚ)]] 255).isSome
  ∧ (marginal_pmf [[(255 : ℚ)]] 256).isSome :=
  ⟨by decide, claim_C9_boundary_bins [[(255 : ℚ)]] (by decide)⟩

/-- Claim C10: a pixel whose intensity truncates to a negative `v` in
[-256, -1] does not make `marginal_pmf` fail: the negative raw-histogram index
wraps around, the pixel is counted in slot `256 + v` (the closed form
`countWrap` of each slot counts both its nonnegative hits and its wrapped
negative hits, and the slot's count is ≥ 1), while the pixel still increments
the total `count` used as the normalizing divisor (the second component
returned by the histogram phase is the full pixel count). -/
theorem claim_C10_negative_wraparound (image : Grid) (v : ℤ)
    (hq : ∀ q ∈ pixels image, -256 ≤ pyTrunc q ∧ pyTrunc q ≤ 255)
    (q0 : ℚ) (hq0 : q0 ∈ pixels image) (hv : pyTrunc q0 = v) (hneg : v < 0) :
    ∃ H, histCounts image = some (H, pixCount image)
      ∧ H.get? (v + 256).toNat = some (countWrap image (v + 256).toNat)
      ∧ 1 ≤ countWrap image (v + 256).toNat
      ∧ (marginal_pmf image 1).isSome := by
  obtain ⟨H, hhc, _, hHk⟩ := histCounts_spec image hq
  have hvb := hq q0 hq0
  have hidx : (v + 256).toNat < 256 := by omega
  refine ⟨H, hhc, hHk _ hidx, ?_, ?_⟩
  · unfold countWrap
    have hpred : (wrapIdx (pyTrunc q0) == (v + 256).toNat) = true := by
      rw [hv]
      unfold wrapIdx
      rw [if_pos hneg]
      simp
    have hpos2 : 0 < (pixels image).countP fun q => wrapIdx (pyTrunc q) == (v + 256).toNat :=
      List.countP_pos.mpr ⟨q0, hq0, hpred⟩
    omega
  · rw [marginal_pmf_eq image 1 (by omega) (by decide) hq]
    rfl

/-- Witness for C10 at the one-pixel image `[[-1]]` (truncates to -1, wraps to
slot 255). -/
theorem claim_C10_witness :
    pyTrunc (-1 : ℚ) = -1
  ∧ ∃ H, histCounts [[(-1 : ℚ)]] = some (H, pixCount [[(-1 : ℚ)]])
      ∧ H.get? ((-1 : ℤ) + 256).toNat
          = some (countWrap [[(-1 : ℚ)]] ((-1 : ℤ) + 256).toNat)
      ∧ 1 ≤ countWrap [[(-1 : ℚ)]] ((-1 : ℤ) + 256).toNat
      ∧ (marginal_pmf [[(-1 : ℚ)]] 1).isSome :=
  ⟨by decide,
   claim_C10_negative_wraparound [[(-1 : ℚ)]] (-1) (by decide) (-1) (by decide)
     (by decide) (by decide)⟩

end MutualInfo
